import Mathlib

/-
Verification of the multi-method test-positivity engine of
`libs/test_positivity.py` (class `Method`, registry `TEST_POSITIVITY_METHODS`,
and `AllMethods.run`).

The shallow embedding models the long-form observations that
`metrics_in.timeseries_long(...)` yields as a list of records, calendar
dates as integers (the dense date axis is a contiguous integer interval),
and pandas float cells as an inductive value type with NaN (missing),
signed infinities and finite rationals.  Every pipeline stage of
`AllMethods.run` is translated into an executable function.
-/

set_option autoImplicit false

namespace TestPos

/-- Field identifiers (the `CommonFields` column names). -/
abbrev Field := String

/-- Region identifiers (`location_id` values). -/
abbrev Region := String

/-- One long-form observation row produced by
`metrics_in.timeseries_long(ts_value_cols)`: a raw cumulative counter
reading for one (variable, region, date) cell.  Cells with no reading are
simply absent from the list. -/
structure Obs where
  var : Field
  region : Region
  date : Int
  value : ℚ
deriving DecidableEq

/-- A method of calculating test positivity (the `Method` dataclass). -/
structure Method where
  name : String
  numerator : Field
  denominator : Field
deriving DecidableEq

/-- One cell of a candidate (ratio) series.  Pandas float cells can hold
NaN (missing), a signed infinity (float division of a nonzero value by
zero) or a finite value; finite floats are modelled as rationals. -/
inductive RVal where
  | nan
  | pinf
  | ninf
  | fin (q : ℚ)
deriving DecidableEq

/-- Embed an integer as a rational.  `Rat.divInt` is used instead of the
numeral coercion so that concrete inputs evaluate inside the kernel. -/
def qInt (n : Int) : ℚ := Rat.divInt n 1

/-- Rational subtraction expressed through `Rat.divInt` (kernel-reducible);
`qSub_eq` identifies it with the subtraction of `ℚ`. -/
def qSub (a b : ℚ) : ℚ := Rat.divInt (a.num * b.den - b.num * a.den) (a.den * b.den)

/-- Rational division expressed through `Rat.divInt` (kernel-reducible);
`qDiv_eq` identifies it with the division of `ℚ`. -/
def qDiv (a b : ℚ) : ℚ := Rat.divInt (a.num * b.den) (a.den * b.num)

/-- Lexicographic comparison of character lists by Unicode code point,
the order Python string comparison uses. -/
def lexLt : List Char → List Char → Bool
  | [], [] => false
  | [], _ :: _ => true
  | _ :: _, [] => false
  | a :: as, b :: bs =>
      if a.toNat < b.toNat then true
      else if b.toNat < a.toNat then false
      else lexLt as bs

/-- Python string comparison (code-point lexicographic), used by pandas
`sort_index` on the method-name index level. -/
def strLtB (a b : String) : Bool := lexLt a.data b.data

/-- Insert into an ascending list (stable: equal keys stay behind). -/
def insertName (nm : String) : List String → List String
  | [] => [nm]
  | x :: xs => if strLtB x nm then x :: insertName nm xs else nm :: x :: xs

/-- Ascending insertion sort by `strLtB`, modelling `sort_index()` on the
method-name level of the row index. -/
def sortNames : List String → List String
  | [] => []
  | x :: xs => insertName x (sortNames xs)

/-- Minimum of a list of dates (`dates.min()`); 0 on the empty list. -/
def minD : List Int → Int
  | [] => 0
  | d :: ds => ds.foldl (fun a x => if x < a then x else a) d

/-- Maximum of a list of dates (`dates.max()`); 0 on the empty list. -/
def maxD : List Int → Int
  | [] => 0
  | d :: ds => ds.foldl (fun a x => if a < x then x else a) d

/-- The union of numerator and denominator fields over the registry
(`ts_value_cols` in `AllMethods.run`); Python builds it as a set, so only
membership is meaningful. -/
def tsValueCols (methods : List Method) : List Field :=
  (methods.map (·.numerator) ++ methods.map (·.denominator)).dedup

/-- The variables present in the input store (`metrics_in.data.columns`).
Modelled from the spec: `MultiRegionTimeseriesDataset` is an external
collaborator, and per the spec a field is a column exactly when some
input observation carries it. -/
def columnsOf (obs : List Obs) : List Field := (obs.map (·.var)).dedup

/-- Restriction of the long input to the requested fields, as performed by
`metrics_in.timeseries_long(ts_value_cols)`. -/
def restrict (obs : List Obs) (cols : List Field) : List Obs :=
  obs.filter (fun o => decide (o.var ∈ cols))

/-- One cell of the `input_long` series after `set_index`: the value
recorded for (variable, region, date), or `none` when the cell is absent. -/
def lookupVal (obs : List Obs) (v : Field) (r : Region) (d : Int) : Option ℚ :=
  (obs.find? (fun o => o.region == r && o.var == v && o.date == d)).map (·.value)

/-- All observation dates (the `DATE` index level). -/
def datesOf (obs : List Obs) : List Int := obs.map (·.date)

/-- The overall earliest observed date (`dates.min()`). -/
def startD (obs : List Obs) : Int := minD (datesOf obs)

/-- The overall latest observed date (`dates.max()`). -/
def endD (obs : List Obs) : Int := maxD (datesOf obs)

/-- The shared contiguous date axis `pd.date_range(start=s, end=e)`. -/
def dateRange (s e : Int) : List Int :=
  (List.range (e - s + 1).toNat).map (fun (i : Nat) => s + (i : Int))

/-- The recency window `pd.date_range(end=e, periods=rd).intersection(axis)`:
the trailing `rd` dates ending at the latest observed date, intersected
with the dense date axis. -/
def recentRange (s e : Int) (rd : Nat) : List Int :=
  (dateRange (e - rd + 1) e).filter (fun d => decide (d ∈ dateRange s e))

/-- One cell of `input_wide.diff(periods=diffDays, axis=1)`: the value at
`d` minus the value at `d - diffDays`, NaN when either cell is NaN or when
`d - diffDays` falls before the first column of the dense axis. -/
def deltaAt (obs : List Obs) (dd : Nat) (s : Int) (v : Field) (r : Region) (d : Int) : Option ℚ :=
  if d - (dd : Int) < s then none
  else
    match lookupVal obs v r d, lookupVal obs v r (d - (dd : Int)) with
    | some a, some b => some (qSub a b)
    | _, _ => none

/-- Float division as the pandas `/` operator performs it in
`Method.calculate`: NaN if either operand is NaN, a signed infinity when a
nonzero value is divided by zero, NaN for zero divided by zero.  The sign
tests are phrased on `Rat.num` (equivalent to tests on the rational, see
`Rat.num_eq_zero` and `Rat.num_pos`) so they evaluate in the kernel. -/
def divQ : Option ℚ → Option ℚ → RVal
  | some a, some b =>
      if b.num = 0 then
        (if a.num = 0 then RVal.nan else if 0 < a.num then RVal.pinf else RVal.ninf)
      else RVal.fin (qDiv a b)
  | _, _ => RVal.nan

/-- One cell of `method.calculate(diff_df)`: the elementwise ratio of the
numerator delta row over the denominator delta row of one region. -/
def ratioAt (obs : List Obs) (dd : Nat) (s : Int) (m : Method) (r : Region) (d : Int) : RVal :=
  divQ (deltaAt obs dd s m.numerator r d) (deltaAt obs dd s m.denominator r d)

/-- The regions having at least one observation of variable `v`: the row
index of `diff_df.loc[v, :]`. -/
def regionsWithData (obs : List Obs) (v : Field) : List Region :=
  ((obs.filter (fun o => o.var == v)).map (·.region)).dedup

/-- Membership of region `r` in the index of `method.calculate(diff_df)`:
pandas aligned division produces the union of the numerator's and the
denominator's region indexes. -/
def rowInConcat (obs : List Obs) (m : Method) (r : Region) : Prop :=
  r ∈ regionsWithData obs m.numerator ∨ r ∈ regionsWithData obs m.denominator

instance (obs : List Obs) (m : Method) (r : Region) : Decidable (rowInConcat obs m r) :=
  inferInstanceAs (Decidable (_ ∈ _ ∨ _ ∈ _))

/-- Row `(r, m)` of the concatenated candidate table survives
`.dropna("index", "all")`: it exists and has a non-NaN cell somewhere on
the date axis. -/
def rowPresent (obs : List Obs) (dd : Nat) (s e : Int) (m : Method) (r : Region) : Prop :=
  rowInConcat obs m r ∧ ∃ d ∈ dateRange s e, ratioAt obs dd s m r d ≠ RVal.nan

instance (obs : List Obs) (dd : Nat) (s e : Int) (m : Method) (r : Region) :
    Decidable (rowPresent obs dd s e m r) :=
  inferInstanceAs (Decidable (_ ∧ _))

/-- Row `(r, m)` has at least one non-NaN cell inside the recency window
(`has_recent_data` in `AllMethods.run`). -/
def hasRecent (obs : List Obs) (dd : Nat) (s e : Int) (rd : Nat) (m : Method) (r : Region) : Prop :=
  ∃ d ∈ recentRange s e rd, ratioAt obs dd s m r d ≠ RVal.nan

instance (obs : List Obs) (dd : Nat) (s e : Int) (rd : Nat) (m : Method) (r : Region) :
    Decidable (hasRecent obs dd s e rd m r) :=
  inferInstanceAs (Decidable (∃ d ∈ recentRange s e rd, _ ≠ _))

/-- The distinct method names: the keys of the python dict
`{method.name: method.calculate(diff_df) for method in methods}`. -/
def methodNames (methods : List Method) : List String := (methods.map (·.name)).dedup

/-- The method whose candidate series is stored under name `nm`; with
duplicate names the dict comprehension keeps the last one. -/
def resolve (methods : List Method) (nm : String) : Option Method :=
  methods.reverse.find? (fun m => m.name == nm)

/-- The candidate-series cell stored in `all_wide` under row `(r, nm)`. -/
def ratioName (obs : List Obs) (methods : List Method) (dd : Nat) (s : Int)
    (nm : String) (r : Region) (d : Int) : RVal :=
  match resolve methods nm with
  | some m => ratioAt obs dd s m r d
  | none => RVal.nan

/-- Whether row `(r, nm)` makes it into `all_recent_data`: it survived the
drop-empty rows step and has data in the recency window. -/
def viableNameB (obs : List Obs) (methods : List Method) (dd : Nat) (s e : Int) (rd : Nat)
    (nm : String) (r : Region) : Bool :=
  match resolve methods nm with
  | some m => decide (rowPresent obs dd s e m r) && decide (hasRecent obs dd s e rd m r)
  | none => false

/-- The recent-viable rows of one region in the order they appear in
`all_recent_data`: ascending by method name, the order `sort_index()`
left them in (the ordered-categorical cast happens after that sort and
never drives any sort). -/
def viableNames (obs : List Obs) (methods : List Method) (dd : Nat) (s e : Int) (rd : Nat)
    (r : Region) : List String :=
  sortNames ((methodNames methods).filter (fun nm => viableNameB obs methods dd s e rd nm r))

/-- Provenance for one region: `groupby(location_id).first()` on the
VARIABLE column yields the first row's method name (that column has no
NaN), i.e. the lexicographically smallest recent-viable name; `none` when
the region has no recent-viable row and is absent from the output. -/
def provenanceAt (obs : List Obs) (methods : List Method) (dd : Nat) (s e : Int) (rd : Nat)
    (r : Region) : Option String :=
  (viableNames obs methods dd s e rd r).head?

/-- First non-NaN element of a column slice, NaN when all are NaN: the
per-column behaviour of pandas `GroupBy.first`. -/
def firstNonNan : List RVal → RVal
  | [] => RVal.nan
  | v :: vs => if v = RVal.nan then firstNonNan vs else v

/-- One cell of the selected positivity frame: pandas `GroupBy.first`
returns, per date column, the first non-NaN value among the region's
recent-viable rows in their current order. -/
def positivityAt (obs : List Obs) (methods : List Method) (dd : Nat) (s e : Int) (rd : Nat)
    (r : Region) (d : Int) : RVal :=
  firstNonNan ((viableNames obs methods dd s e rd r).map
    (fun nm => ratioName obs methods dd s nm r d))

/-- The input restricted to the requested fields, the series on which
`AllMethods.run` computes everything. -/
def resOf (obs : List Obs) (methods : List Method) : List Obs :=
  restrict obs (tsValueCols methods)

/-- The delta cell of `AllMethods.run` for (variable, region, date). -/
def deltaOf (obs : List Obs) (methods : List Method) (dd : Nat)
    (v : Field) (r : Region) (d : Int) : Option ℚ :=
  deltaAt (resOf obs methods) dd (startD (resOf obs methods)) v r d

/-- The candidate (ratio) cell of `AllMethods.run` for (method, region, date). -/
def candOf (obs : List Obs) (methods : List Method) (dd : Nat)
    (m : Method) (r : Region) (d : Int) : RVal :=
  ratioAt (resOf obs methods) dd (startD (resOf obs methods)) m r d

/-- The dense date axis of `AllMethods.run`. -/
def rangeOf (obs : List Obs) (methods : List Method) : List Int :=
  dateRange (startD (resOf obs methods)) (endD (resOf obs methods))

/-- The recency window of `AllMethods.run`. -/
def recentOf (obs : List Obs) (methods : List Method) (rd : Nat) : List Int :=
  recentRange (startD (resOf obs methods)) (endD (resOf obs methods)) rd

/-- Whether method `m` survives the drop-empty step for region `r`. -/
def presentOf (obs : List Obs) (methods : List Method) (dd : Nat) (m : Method) (r : Region) : Prop :=
  rowPresent (resOf obs methods) dd (startD (resOf obs methods)) (endD (resOf obs methods)) m r

instance (obs : List Obs) (methods : List Method) (dd : Nat) (m : Method) (r : Region) :
    Decidable (presentOf obs methods dd m r) :=
  inferInstanceAs (Decidable (rowPresent _ _ _ _ _ _))

/-- Whether method `m` has recent data for region `r` in `AllMethods.run`. -/
def recentDataOf (obs : List Obs) (methods : List Method) (dd rd : Nat) (m : Method) (r : Region) : Prop :=
  hasRecent (resOf obs methods) dd (startD (resOf obs methods)) (endD (resOf obs methods)) rd m r

instance (obs : List Obs) (methods : List Method) (dd rd : Nat) (m : Method) (r : Region) :
    Decidable (recentDataOf obs methods dd rd m r) :=
  inferInstanceAs (Decidable (hasRecent _ _ _ _ _ _ _))

/-- Recent-viable: the conjunction of surviving the drop-empty step and
having recent data; rows of `all_recent_data`. -/
def viableOf (obs : List Obs) (methods : List Method) (dd rd : Nat) (m : Method) (r : Region) : Prop :=
  presentOf obs methods dd m r ∧ recentDataOf obs methods dd rd m r

instance (obs : List Obs) (methods : List Method) (dd rd : Nat) (m : Method) (r : Region) :
    Decidable (viableOf obs methods dd rd m r) :=
  inferInstanceAs (Decidable (_ ∧ _))

/-- The provenance entry of `AllMethods.run` for region `r` (`none` when
the region receives no selection and is absent from the output). -/
def provOf (obs : List Obs) (methods : List Method) (dd rd : Nat) (r : Region) : Option String :=
  provenanceAt (resOf obs methods) methods dd (startD (resOf obs methods))
    (endD (resOf obs methods)) rd r

/-- The selected positivity cell of `AllMethods.run` for (region, date). -/
def posOf (obs : List Obs) (methods : List Method) (dd rd : Nat) (r : Region) (d : Int) : RVal :=
  positivityAt (resOf obs methods) methods dd (startD (resOf obs methods))
    (endD (resOf obs methods)) rd r d

/-- Whether row `(r, nm)` of the concatenated table survives the
drop-empty step (row membership in `all_wide`). -/
def presentNameB (obs : List Obs) (methods : List Method) (dd : Nat) (s e : Int)
    (nm : String) (r : Region) : Bool :=
  match resolve methods nm with
  | some m => decide (rowPresent obs dd s e m r)
  | none => false

/-- The regions of the input, in the sorted order `groupby` and
`sort_index` leave them in. -/
def allRegions (obs : List Obs) : List Region := sortNames ((obs.map (·.region)).dedup)

/-- The full result of `AllMethods.run`: the diagnostic table `all_wide`
(one row per surviving (region, method-name), one column per date of the
dense axis), the provenance records and the selected positivity series
(stacking drops NaN cells). -/
structure RunResult where
  allMethodsRows : List ((Region × String) × List (Int × RVal))
  provenanceRows : List (Region × String)
  positivityRows : List (Region × List (Int × RVal))
deriving DecidableEq

/-- The entry point `AllMethods.run`.  The leading check models the
assertion that every requested field is among the input columns
(`SchemaError` per the spec taxonomy); with an empty registry the pandas
`date_range` call would fail on an empty input instead (`ValueError`). -/
def run (obs : List Obs) (methods : List Method) (dd rd : Nat) : Except String RunResult :=
  if (tsValueCols methods).all (fun f => decide (f ∈ columnsOf obs)) then
    if (resOf obs methods).isEmpty then Except.error "ValueError"
    else
      Except.ok
        { allMethodsRows :=
            (allRegions (resOf obs methods)).flatMap (fun r =>
              (sortNames ((methodNames methods).filter (fun nm =>
                  presentNameB (resOf obs methods) methods dd (startD (resOf obs methods))
                    (endD (resOf obs methods)) nm r))).map (fun nm =>
                ((r, nm), (rangeOf obs methods).map (fun d =>
                  (d, ratioName (resOf obs methods) methods dd (startD (resOf obs methods)) nm r d)))))
          provenanceRows :=
            (allRegions (resOf obs methods)).filterMap (fun r =>
              (provOf obs methods dd rd r).map (fun nm => (r, nm)))
          positivityRows :=
            (allRegions (resOf obs methods)).filterMap (fun r =>
              if (provOf obs methods dd rd r).isSome then
                some (r, (rangeOf obs methods).filterMap (fun d =>
                  if posOf obs methods dd rd r d = RVal.nan then none
                  else some (d, posOf obs methods dd rd r d)))
              else none) }
  else Except.error "SchemaError"

/-- The row index of `input_wide` and `diff_df`: the distinct
(variable, region) pairs of the long input, one row per pair. -/
def wideRows (obs : List Obs) : List (Field × Region) :=
  (obs.map (fun o => (o.var, o.region))).dedup

/-- A registry whose priority order is the reverse of the lexicographic
order of the method names: position 0 holds the method named "m2",
position 1 the method named "m1". -/
def methodsC1 : List Method := [⟨"m2", "n2", "t2"⟩, ⟨"m1", "n1", "t1"⟩]

/-- An input on which both methods of `methodsC1` are recent-viable for
region R. -/
def obsC1 : List Obs :=
  [⟨"n2", "R", 0, qInt 10⟩, ⟨"n2", "R", 1, qInt 15⟩,
   ⟨"t2", "R", 0, qInt 100⟩, ⟨"t2", "R", 1, qInt 300⟩,
   ⟨"n1", "R", 0, qInt 1⟩, ⟨"n1", "R", 1, qInt 2⟩,
   ⟨"t1", "R", 0, qInt 10⟩, ⟨"t1", "R", 1, qInt 30⟩]

/-- A two-method registry with names in lexicographic order "a" before "b". -/
def methodsC2 : List Method := [⟨"a", "n1", "t1"⟩, ⟨"b", "n2", "t2"⟩]

/-- An input where method "a" has a NaN candidate cell at date 1 while
method "b" has a finite value there, and both are recent-viable for R. -/
def obsC2 : List Obs :=
  [⟨"n1", "R", 1, qInt 10⟩, ⟨"n1", "R", 2, qInt 20⟩,
   ⟨"t1", "R", 1, qInt 100⟩, ⟨"t1", "R", 2, qInt 200⟩,
   ⟨"n2", "R", 0, qInt 5⟩, ⟨"n2", "R", 1, qInt 10⟩, ⟨"n2", "R", 2, qInt 20⟩,
   ⟨"t2", "R", 0, qInt 50⟩, ⟨"t2", "R", 1, qInt 150⟩, ⟨"t2", "R", 2, qInt 350⟩]

/-- One-method registry used by the division claims. -/
def methodsC3 : List Method := [⟨"m", "n", "t"⟩]

/-- An input with numerator delta 5 and denominator delta exactly 0 at
date 1 for region R. -/
def obsC3 : List Obs :=
  [⟨"n", "R", 0, qInt 10⟩, ⟨"n", "R", 1, qInt 15⟩,
   ⟨"t", "R", 0, qInt 100⟩, ⟨"t", "R", 1, qInt 100⟩]

/-- An input whose denominator delta at date 1 is missing (no denominator
observation at date 0). -/
def obsC3b : List Obs :=
  [⟨"n", "R", 0, qInt 10⟩, ⟨"n", "R", 1, qInt 15⟩, ⟨"t", "R", 1, qInt 100⟩]

/-- One-method registry used by the isolation claim. -/
def methodsC4 : List Method := [⟨"m", "n", "t"⟩]

/-- Region Y data (fresh at dates 0 and 1) plus a region X observation at
date 20 that stretches the shared date axis and the recency window. -/
def obs4a : List Obs :=
  [⟨"n", "Y", 0, qInt 10⟩, ⟨"n", "Y", 1, qInt 15⟩,
   ⟨"t", "Y", 0, qInt 100⟩, ⟨"t", "Y", 1, qInt 300⟩,
   ⟨"n", "X", 20, qInt 7⟩]

/-- The same region Y data with region X removed entirely. -/
def obs4b : List Obs :=
  [⟨"n", "Y", 0, qInt 10⟩, ⟨"n", "Y", 1, qInt 15⟩,
   ⟨"t", "Y", 0, qInt 100⟩, ⟨"t", "Y", 1, qInt 300⟩]

/-- Region Y data plus region X data (value 7). -/
def obs4w1 : List Obs :=
  [⟨"n", "Y", 0, qInt 10⟩, ⟨"n", "Y", 1, qInt 15⟩,
   ⟨"t", "Y", 0, qInt 100⟩, ⟨"t", "Y", 1, qInt 300⟩,
   ⟨"n", "X", 1, qInt 7⟩]

/-- The same region Y data with region X corrupted (value 9), but the same
overall date bounds. -/
def obs4w2 : List Obs :=
  [⟨"n", "Y", 0, qInt 10⟩, ⟨"n", "Y", 1, qInt 15⟩,
   ⟨"t", "Y", 0, qInt 100⟩, ⟨"t", "Y", 1, qInt 300⟩,
   ⟨"n", "X", 1, qInt 9⟩]

/-- One-method registry used by the delta claim. -/
def methodsC5 : List Method := [⟨"m", "cum", "den"⟩]

/-- Cumulative values 10, 15, 25, 40 on consecutive dates, then a
downward correction to 30. -/
def obsC5 : List Obs :=
  [⟨"cum", "R", 0, qInt 10⟩, ⟨"cum", "R", 1, qInt 15⟩,
   ⟨"cum", "R", 2, qInt 25⟩, ⟨"cum", "R", 3, qInt 40⟩,
   ⟨"cum", "R", 4, qInt 30⟩]

/-- One-method registry used by the dense-shape claim. -/
def methodsC6 : List Method := [⟨"m", "n", "t"⟩]

/-- Fields with different individual date ranges: "n" spans 0..1 and "t"
spans 3..5, so the shared axis is 0..5. -/
def obsC6 : List Obs :=
  [⟨"n", "A", 0, qInt 1⟩, ⟨"n", "A", 1, qInt 2⟩,
   ⟨"t", "B", 3, qInt 5⟩, ⟨"t", "B", 5, qInt 9⟩]

/-- One-method registry used by the recency claim. -/
def methodsC7 : List Method := [⟨"m", "n", "t"⟩]

/-- Region R has candidate data only at date 1, far before the recency
window, because region Z observations stretch the axis to date 30. -/
def obsC7 : List Obs :=
  [⟨"n", "R", 0, qInt 10⟩, ⟨"n", "R", 1, qInt 15⟩,
   ⟨"t", "R", 0, qInt 100⟩, ⟨"t", "R", 1, qInt 300⟩,
   ⟨"n", "Z", 30, qInt 7⟩]

/-- One-method registry used by the schema claim. -/
def methodsC8 : List Method := [⟨"m", "n", "t"⟩]

/-- An input carrying both requested fields. -/
def obsC8good : List Obs := [⟨"n", "R", 0, qInt 1⟩, ⟨"t", "R", 0, qInt 2⟩]

/-- An input from which the denominator field "t" is entirely absent. -/
def obsC8bad : List Obs := [⟨"n", "R", 0, qInt 1⟩]

/-- One-method registry used by the infinity claim. -/
def methodsC10 : List Method := [⟨"m", "n", "t"⟩]

/-- An input whose only non-NaN candidate cell for region R is the
positive infinity produced by the delta pair 5 / 0 at date 1. -/
def obsC10 : List Obs :=
  [⟨"n", "R", 0, qInt 10⟩, ⟨"n", "R", 1, qInt 15⟩,
   ⟨"t", "R", 0, qInt 50⟩, ⟨"t", "R", 1, qInt 50⟩]

theorem qInt_eq (n : Int) : qInt n = (n : ℚ) := by
  simp [qInt, Rat.divInt_one]

theorem qSub_eq (a b : ℚ) : qSub a b = a - b := by
  rw [qSub, Rat.sub_def]
  simp [Rat.normalize_eq_mkRat, Rat.mkRat_eq_divInt]

theorem qDiv_eq (a b : ℚ) : qDiv a b = a / b := by
  rcases eq_or_ne b 0 with rfl | hb
  · simp [qDiv]
  · have had : (a.den : ℚ) ≠ 0 := by exact_mod_cast a.den_nz
    have hbd : (b.den : ℚ) ≠ 0 := by exact_mod_cast b.den_nz
    have hbn : (b.num : ℚ) ≠ 0 := by exact_mod_cast Rat.num_ne_zero.mpr hb
    have ha : (a.num : ℚ) = a * a.den := (div_eq_iff had).mp (Rat.num_div_den a)
    have hb2 : (b.num : ℚ) = b * b.den := (div_eq_iff hbd).mp (Rat.num_div_den b)
    rw [qDiv, Rat.divInt_eq_div]
    push_cast
    rw [div_eq_div_iff (mul_ne_zero had hbn) hb, ha, hb2]
    ring

theorem mem_dateRange {s e d : Int} : d ∈ dateRange s e ↔ s ≤ d ∧ d ≤ e := by
  simp only [dateRange, List.mem_map, List.mem_range]
  constructor
  · rintro ⟨i, hi, rfl⟩
    omega
  · rintro ⟨h1, h2⟩
    exact ⟨(d - s).toNat, by omega, by omega⟩

theorem foldlMin_le_init (l : List Int) (a : Int) :
    l.foldl (fun b x => if x < b then x else b) a ≤ a := by
  induction l generalizing a with
  | nil => simp
  | cons y ys ih =>
    simp only [List.foldl_cons]
    by_cases hy : y < a
    · simp only [if_pos hy]
      exact le_trans (ih y) (le_of_lt hy)
    · simp only [if_neg hy]
      exact ih a

theorem foldlMin_le_mem (l : List Int) (a : Int) {x : Int} (hx : x ∈ l) :
    l.foldl (fun b x => if x < b then x else b) a ≤ x := by
  induction l generalizing a with
  | nil => simp at hx
  | cons y ys ih =>
    simp only [List.foldl_cons]
    rcases List.mem_cons.mp hx with rfl | hx2
    · by_cases hy : x < a
      · simp only [if_pos hy]
        exact foldlMin_le_init ys x
      · simp only [if_neg hy]
        exact le_trans (foldlMin_le_init ys a) (not_lt.mp hy)
    · exact ih _ hx2

theorem foldlMin_mem (l : List Int) (a : Int) :
    l.foldl (fun b x => if x < b then x else b) a = a ∨
      l.foldl (fun b x => if x < b then x else b) a ∈ l := by
  induction l generalizing a with
  | nil => simp
  | cons y ys ih =>
    simp only [List.foldl_cons, List.mem_cons]
    by_cases hy : y < a
    · simp only [if_pos hy]
      rcases ih y with h | h
      · right; left; exact h
      · right; right; exact h
    · simp only [if_neg hy]
      rcases ih a with h | h
      · left; exact h
      · right; right; exact h

theorem minD_le {l : List Int} {x : Int} (hx : x ∈ l) : minD l ≤ x := by
  cases l with
  | nil => simp at hx
  | cons y ys =>
    rcases List.mem_cons.mp hx with rfl | hx2
    · exact foldlMin_le_init ys x
    · exact foldlMin_le_mem ys y hx2

theorem minD_mem {l : List Int} (h : l ≠ []) : minD l ∈ l := by
  cases l with
  | nil => exact absurd rfl h
  | cons y ys =>
    rcases foldlMin_mem ys y with h2 | h2
    · rw [minD, h2]; exact List.mem_cons_self y ys
    · exact List.mem_cons_of_mem y h2

theorem foldlMax_init_le (l : List Int) (a : Int) :
    a ≤ l.foldl (fun b x => if b < x then x else b) a := by
  induction l generalizing a with
  | nil => simp
  | cons y ys ih =>
    simp only [List.foldl_cons]
    by_cases hy : a < y
    · simp only [if_pos hy]
      exact le_trans (le_of_lt hy) (ih y)
    · simp only [if_neg hy]
      exact ih a

theorem foldlMax_mem_le (l : List Int) (a : Int) {x : Int} (hx : x ∈ l) :
    x ≤ l.foldl (fun b x => if b < x then x else b) a := by
  induction l generalizing a with
  | nil => simp at hx
  | cons y ys ih =>
    simp only [List.foldl_cons]
    rcases List.mem_cons.mp hx with rfl | hx2
    · by_cases hy : a < x
      · simp only [if_pos hy]
        exact foldlMax_init_le ys x
      · simp only [if_neg hy]
        exact le_trans (not_lt.mp hy) (foldlMax_init_le ys a)
    · exact ih _ hx2

theorem foldlMax_mem (l : List Int) (a : Int) :
    l.foldl (fun b x => if b < x then x else b) a = a ∨
      l.foldl (fun b x => if b < x then x else b) a ∈ l := by
  induction l generalizing a with
  | nil => simp
  | cons y ys ih =>
    simp only [List.foldl_cons, List.mem_cons]
    by_cases hy : a < y
    · simp only [if_pos hy]
      rcases ih y with h | h
      · right; left; exact h
      · right; right; exact h
    · simp only [if_neg hy]
      rcases ih a with h | h
      · left; exact h
      · right; right; exact h

theorem le_maxD {l : List Int} {x : Int} (hx : x ∈ l) : x ≤ maxD l := by
  cases l with
  | nil => simp at hx
  | cons y ys =>
    rcases List.mem_cons.mp hx with rfl | hx2
    · exact foldlMax_init_le ys x
    · exact foldlMax_mem_le ys y hx2

theorem maxD_mem {l : List Int} (h : l ≠ []) : maxD l ∈ l := by
  cases l with
  | nil => exact absurd rfl h
  | cons y ys =>
    rcases foldlMax_mem ys y with h2 | h2
    · rw [maxD, h2]; exact List.mem_cons_self y ys
    · exact List.mem_cons_of_mem y h2

theorem lookupVal_eq_some {obs : List Obs} {v : Field} {r : Region} {d : Int} {q : ℚ}
    (h : lookupVal obs v r d = some q) :
    ∃ o ∈ obs, o.var = v ∧ o.region = r ∧ o.date = d ∧ o.value = q := by
  rw [lookupVal, Option.map_eq_some'] at h
  obtain ⟨o, hfind, hval⟩ := h
  have hp := List.find?_some hfind
  have hm := List.mem_of_find?_eq_some hfind
  simp only [Bool.and_eq_true, beq_iff_eq] at hp
  exact ⟨o, hm, hp.1.2, hp.1.1, hp.2, hval⟩

theorem mem_regionsWithData {obs : List Obs} {v : Field} {r : Region} :
    r ∈ regionsWithData obs v ↔ ∃ o ∈ obs, o.var = v ∧ o.region = r := by
  simp only [regionsWithData, List.mem_dedup, List.mem_map, List.mem_filter, beq_iff_eq]
  constructor
  · rintro ⟨o, ⟨ho, hv⟩, rfl⟩
    exact ⟨o, ho, hv, rfl⟩
  · rintro ⟨o, ho, hv, hr⟩
    exact ⟨o, ⟨ho, hv⟩, hr⟩

theorem mem_columnsOf {obs : List Obs} {f : Field} :
    f ∈ columnsOf obs ↔ ∃ o ∈ obs, o.var = f := by
  simp [columnsOf]

theorem mem_recentRange {s e : Int} {rd : Nat} {d : Int} :
    d ∈ recentRange s e rd ↔ (e - (rd : Int) + 1 ≤ d ∧ d ≤ e) ∧ s ≤ d := by
  simp only [recentRange, List.mem_filter, mem_dateRange, decide_eq_true_eq]
  constructor
  · rintro ⟨⟨h1, h2⟩, h3, h4⟩
    exact ⟨⟨h1, h2⟩, h3⟩
  · rintro ⟨⟨h1, h2⟩, h3⟩
    exact ⟨⟨h1, h2⟩, h3, h2⟩

theorem insertName_ne_nil (nm : String) (l : List String) : insertName nm l ≠ [] := by
  cases l with
  | nil => simp [insertName]
  | cons x xs =>
    simp only [insertName]
    split
    · simp
    · simp

theorem mem_insertName {nm x : String} {l : List String} :
    x ∈ insertName nm l ↔ x = nm ∨ x ∈ l := by
  induction l with
  | nil => simp [insertName]
  | cons y ys ih =>
    simp only [insertName]
    split
    · constructor
      · intro hx
        rcases List.mem_cons.mp hx with rfl | hx2
        · exact Or.inr (List.mem_cons_self _ _)
        · rcases ih.mp hx2 with h | h
          · exact Or.inl h
          · exact Or.inr (List.mem_cons_of_mem _ h)
      · intro hx
        rcases hx with rfl | hx2
        · exact List.mem_cons_of_mem _ (ih.mpr (Or.inl rfl))
        · rcases List.mem_cons.mp hx2 with rfl | hx3
          · exact List.mem_cons_self _ _
          · exact List.mem_cons_of_mem _ (ih.mpr (Or.inr hx3))
    · constructor
      · intro hx
        rcases List.mem_cons.mp hx with rfl | hx2
        · exact Or.inl rfl
        · exact Or.inr hx2
      · intro hx
        rcases hx with rfl | hx2
        · exact List.mem_cons_self _ _
        · exact List.mem_cons_of_mem _ hx2

theorem sortNames_eq_nil_iff {l : List String} : sortNames l = [] ↔ l = [] := by
  cases l with
  | nil => simp [sortNames]
  | cons x xs => simpa [sortNames] using insertName_ne_nil x (sortNames xs)

theorem mem_sortNames {x : String} {l : List String} : x ∈ sortNames l ↔ x ∈ l := by
  induction l with
  | nil => simp [sortNames]
  | cons y ys ih => simp [sortNames, mem_insertName, ih]

theorem mem_sortNames_iff {x : String} {l : List String} : x ∈ sortNames l ↔ x ∈ l :=
  mem_sortNames

theorem find?_filter_region (v : Field) (r : Region) (d : Int) :
    ∀ obs : List Obs,
      obs.find? (fun o => o.region == r && o.var == v && o.date == d) =
        (obs.filter (fun o => o.region == r)).find?
          (fun o => o.region == r && o.var == v && o.date == d)
  | [] => rfl
  | o :: t => by
    by_cases hr : o.region = r
    · rw [List.filter_cons_of_pos (by simpa using hr), List.find?_cons, List.find?_cons]
      cases hp : (o.region == r && o.var == v && o.date == d) with
      | true => rfl
      | false => exact find?_filter_region v r d t
    · rw [List.filter_cons_of_neg (by simpa using hr), List.find?_cons]
      have hf : (o.region == r && o.var == v && o.date == d) = false := by
        simp [hr]
      rw [hf]
      exact find?_filter_region v r d t

theorem lookupVal_filter_region (obs : List Obs) (v : Field) (r : Region) (d : Int) :
    lookupVal obs v r d = lookupVal (obs.filter (fun o => o.region == r)) v r d := by
  unfold lookupVal
  rw [find?_filter_region]

theorem lookupVal_congr {obs1 obs2 : List Obs} {r : Region}
    (h : obs1.filter (fun o => o.region == r) = obs2.filter (fun o => o.region == r))
    (v : Field) (d : Int) : lookupVal obs1 v r d = lookupVal obs2 v r d := by
  rw [lookupVal_filter_region obs1, lookupVal_filter_region obs2, h]

theorem deltaAt_congr {obs1 obs2 : List Obs} {r : Region}
    (h : obs1.filter (fun o => o.region == r) = obs2.filter (fun o => o.region == r))
    (dd : Nat) (s : Int) (v : Field) (d : Int) :
    deltaAt obs1 dd s v r d = deltaAt obs2 dd s v r d := by
  unfold deltaAt
  rw [lookupVal_congr h, lookupVal_congr h]

theorem ratioAt_congr {obs1 obs2 : List Obs} {r : Region}
    (h : obs1.filter (fun o => o.region == r) = obs2.filter (fun o => o.region == r))
    (dd : Nat) (s : Int) (m : Method) (d : Int) :
    ratioAt obs1 dd s m r d = ratioAt obs2 dd s m r d := by
  unfold ratioAt
  rw [deltaAt_congr h, deltaAt_congr h]

theorem mem_region_congr {obs1 obs2 : List Obs} {r : Region}
    (h : obs1.filter (fun o => o.region == r) = obs2.filter (fun o => o.region == r))
    {o : Obs} (ho : o.region = r) : o ∈ obs1 ↔ o ∈ obs2 := by
  constructor
  · intro h1
    have hm : o ∈ obs1.filter (fun o => o.region == r) :=
      List.mem_filter.mpr ⟨h1, by simp [ho]⟩
    rw [h] at hm
    exact (List.mem_filter.mp hm).1
  · intro h2
    have hm : o ∈ obs2.filter (fun o => o.region == r) :=
      List.mem_filter.mpr ⟨h2, by simp [ho]⟩
    rw [← h] at hm
    exact (List.mem_filter.mp hm).1

theorem regionsWithData_congr {obs1 obs2 : List Obs} {r : Region}
    (h : obs1.filter (fun o => o.region == r) = obs2.filter (fun o => o.region == r))
    (v : Field) : r ∈ regionsWithData obs1 v ↔ r ∈ regionsWithData obs2 v := by
  rw [mem_regionsWithData, mem_regionsWithData]
  constructor
  · rintro ⟨o, ho, hv, hr⟩
    exact ⟨o, (mem_region_congr h hr).mp ho, hv, hr⟩
  · rintro ⟨o, ho, hv, hr⟩
    exact ⟨o, (mem_region_congr h hr).mpr ho, hv, hr⟩

theorem rowInConcat_congr {obs1 obs2 : List Obs} {r : Region}
    (h : obs1.filter (fun o => o.region == r) = obs2.filter (fun o => o.region == r))
    (m : Method) : rowInConcat obs1 m r ↔ rowInConcat obs2 m r := by
  unfold rowInConcat
  rw [regionsWithData_congr h, regionsWithData_congr h]

theorem rowPresent_congr {obs1 obs2 : List Obs} {r : Region}
    (h : obs1.filter (fun o => o.region == r) = obs2.filter (fun o => o.region == r))
    (dd : Nat) (s e : Int) (m : Method) :
    rowPresent obs1 dd s e m r ↔ rowPresent obs2 dd s e m r := by
  unfold rowPresent
  rw [rowInConcat_congr h]
  simp only [ratioAt_congr h]

theorem hasRecent_congr {obs1 obs2 : List Obs} {r : Region}
    (h : obs1.filter (fun o => o.region == r) = obs2.filter (fun o => o.region == r))
    (dd : Nat) (s e : Int) (rd : Nat) (m : Method) :
    hasRecent obs1 dd s e rd m r ↔ hasRecent obs2 dd s e rd m r := by
  unfold hasRecent
  simp only [ratioAt_congr h]

theorem viableNameB_congr {obs1 obs2 : List Obs} {r : Region}
    (h : obs1.filter (fun o => o.region == r) = obs2.filter (fun o => o.region == r))
    (methods : List Method) (dd : Nat) (s e : Int) (rd : Nat) (nm : String) :
    viableNameB obs1 methods dd s e rd nm r = viableNameB obs2 methods dd s e rd nm r := by
  unfold viableNameB
  cases resolve methods nm with
  | none => rfl
  | some m =>
    show (decide (rowPresent obs1 dd s e m r) && decide (hasRecent obs1 dd s e rd m r)) =
      (decide (rowPresent obs2 dd s e m r) && decide (hasRecent obs2 dd s e rd m r))
    rw [decide_eq_decide.mpr (rowPresent_congr h dd s e m),
      decide_eq_decide.mpr (hasRecent_congr h dd s e rd m)]

theorem viableNames_congr {obs1 obs2 : List Obs} {r : Region}
    (h : obs1.filter (fun o => o.region == r) = obs2.filter (fun o => o.region == r))
    (methods : List Method) (dd : Nat) (s e : Int) (rd : Nat) :
    viableNames obs1 methods dd s e rd r = viableNames obs2 methods dd s e rd r := by
  unfold viableNames
  congr 1
  exact List.filter_congr (fun nm _ => viableNameB_congr h methods dd s e rd nm)

theorem ratioName_congr {obs1 obs2 : List Obs} {r : Region}
    (h : obs1.filter (fun o => o.region == r) = obs2.filter (fun o => o.region == r))
    (methods : List Method) (dd : Nat) (s : Int) (nm : String) (d : Int) :
    ratioName obs1 methods dd s nm r d = ratioName obs2 methods dd s nm r d := by
  unfold ratioName
  cases resolve methods nm with
  | none => rfl
  | some m => exact ratioAt_congr h dd s m d

theorem provenanceAt_congr {obs1 obs2 : List Obs} {r : Region}
    (h : obs1.filter (fun o => o.region == r) = obs2.filter (fun o => o.region == r))
    (methods : List Method) (dd : Nat) (s e : Int) (rd : Nat) :
    provenanceAt obs1 methods dd s e rd r = provenanceAt obs2 methods dd s e rd r := by
  unfold provenanceAt
  rw [viableNames_congr h]

theorem positivityAt_congr {obs1 obs2 : List Obs} {r : Region}
    (h : obs1.filter (fun o => o.region == r) = obs2.filter (fun o => o.region == r))
    (methods : List Method) (dd : Nat) (s e : Int) (rd : Nat) (d : Int) :
    positivityAt obs1 methods dd s e rd r d = positivityAt obs2 methods dd s e rd r d := by
  unfold positivityAt
  rw [viableNames_congr h]
  congr 1
  exact List.map_congr_left (fun nm _ => ratioName_congr h methods dd s nm d)

theorem restrict_filter_comm (obs : List Obs) (cols : List Field) (r : Region) :
    (restrict obs cols).filter (fun o => o.region == r) =
      restrict (obs.filter (fun o => o.region == r)) cols := by
  unfold restrict
  rw [List.filter_filter, List.filter_filter]
  exact List.filter_congr (fun a _ => by rw [Bool.and_comm])

theorem candOf_eq (obs : List Obs) (methods : List Method) (dd : Nat)
    (m : Method) (r : Region) (d : Int) :
    candOf obs methods dd m r d =
      divQ (deltaOf obs methods dd m.numerator r d)
        (deltaOf obs methods dd m.denominator r d) := rfl

theorem divQ_ne_nan {x y : Option ℚ} (h : divQ x y ≠ RVal.nan) :
    ∃ a b, x = some a ∧ y = some b := by
  cases x with
  | none => exact absurd rfl h
  | some a =>
    cases y with
    | none => exact absurd rfl h
    | some b => exact ⟨a, b, rfl, rfl⟩

theorem deltaAt_eq_some {obs : List Obs} {dd : Nat} {s : Int} {v : Field} {r : Region}
    {d : Int} {q : ℚ} (h : deltaAt obs dd s v r d = some q) :
    (∃ a, lookupVal obs v r d = some a) ∧
      (∃ b, lookupVal obs v r (d - (dd : Int)) = some b) := by
  unfold deltaAt at h
  split at h
  · exact Option.noConfusion h
  · cases h1 : lookupVal obs v r d with
    | none => rw [h1] at h; exact Option.noConfusion h
    | some a =>
      cases h2 : lookupVal obs v r (d - (dd : Int)) with
      | none => rw [h1, h2] at h; exact Option.noConfusion h
      | some b => exact ⟨⟨a, rfl⟩, ⟨b, rfl⟩⟩

theorem resolve_mem {methods : List Method} {nm : String} {m : Method}
    (h : resolve methods nm = some m) : m ∈ methods ∧ m.name = nm := by
  unfold resolve at h
  have hm := List.mem_of_find?_eq_some h
  have hp := List.find?_some h
  rw [List.mem_reverse] at hm
  simp only [beq_iff_eq] at hp
  exact ⟨hm, hp⟩

theorem mem_tsValueCols {methods : List Method} {m : Method} (h : m ∈ methods) :
    m.numerator ∈ tsValueCols methods ∧ m.denominator ∈ tsValueCols methods := by
  unfold tsValueCols
  rw [List.mem_dedup, List.mem_dedup]
  constructor
  · exact List.mem_append_left _ (List.mem_map_of_mem _ h)
  · exact List.mem_append_right _ (List.mem_map_of_mem _ h)

theorem viableNameB_eq_true {obs : List Obs} {methods : List Method} {dd : Nat}
    {s e : Int} {rd : Nat} {nm : String} {r : Region} :
    viableNameB obs methods dd s e rd nm r = true ↔
      ∃ m, resolve methods nm = some m ∧
        rowPresent obs dd s e m r ∧ hasRecent obs dd s e rd m r := by
  unfold viableNameB
  cases hres : resolve methods nm with
  | none =>
    show false = true ↔ _
    simp
  | some m =>
    show (decide (rowPresent obs dd s e m r) && decide (hasRecent obs dd s e rd m r)) = true ↔ _
    simp only [Bool.and_eq_true, decide_eq_true_eq]
    constructor
    · rintro ⟨h1, h2⟩
      exact ⟨m, rfl, h1, h2⟩
    · rintro ⟨m2, hm2, h1, h2⟩
      injection hm2 with hmm
      subst hmm
      exact ⟨h1, h2⟩

theorem mem_viableNames {obs : List Obs} {methods : List Method} {dd : Nat}
    {s e : Int} {rd : Nat} {nm : String} {r : Region} :
    nm ∈ viableNames obs methods dd s e rd r ↔
      nm ∈ methodNames methods ∧
        ∃ m, resolve methods nm = some m ∧
          rowPresent obs dd s e m r ∧ hasRecent obs dd s e rd m r := by
  unfold viableNames
  rw [mem_sortNames, List.mem_filter, viableNameB_eq_true]

/-- C9: `AllMethods.run` is deterministic — it is modelled as a pure
function of the input snapshot, the method registry, `diff_days` and
`recent_days`, so two invocations on identical inputs yield identical
outputs (the diagnostic table, the selected positivity series and the
provenance records of the `RunResult` coincide). -/
theorem C9_determinism (obs : List Obs) (methods : List Method) (dd rd : Nat) :
    run obs methods dd rd = run obs methods dd rd := rfl

/-- C3 counterexample: in `obsC3` the numerator delta at date 1 is 5 and
the denominator delta is exactly 0, yet the candidate cell is positive
infinity, not missing — refuting the claim that a zero denominator with a
non-missing numerator yields a missing ratio. -/
theorem C3_counterexample :
    deltaOf obsC3 methodsC3 1 "n" "R" 1 = some 5 ∧
    deltaOf obsC3 methodsC3 1 "t" "R" 1 = some 0 ∧
    candOf obsC3 methodsC3 1 ⟨"m", "n", "t"⟩ "R" 1 = RVal.pinf ∧
    candOf obsC3 methodsC3 1 ⟨"m", "n", "t"⟩ "R" 1 ≠ RVal.nan := by
  decide

/-- C3 amended: in `Method.calculate`, a (region, date) cell with
denominator delta exactly 0 and non-missing numerator delta `a` yields
NaN (missing) when `a = 0`, positive infinity when `a > 0` and negative
infinity when `a < 0` — pandas float division semantics, with no error
raised; a missing denominator delta yields a missing ratio. -/
theorem C3_div_by_zero_amended (obs : List Obs) (methods : List Method) (dd : Nat)
    (m : Method) (r : Region) (d : Int) :
    (∀ a : ℚ, deltaOf obs methods dd m.numerator r d = some a →
      deltaOf obs methods dd m.denominator r d = some 0 →
      candOf obs methods dd m r d =
        (if a = 0 then RVal.nan else if 0 < a then RVal.pinf else RVal.ninf)) ∧
    (deltaOf obs methods dd m.denominator r d = none →
      candOf obs methods dd m r d = RVal.nan) := by
  constructor
  · intro a h1 h2
    rw [candOf_eq, h1, h2]
    show (if (0 : ℚ).num = 0 then
        (if a.num = 0 then RVal.nan else if 0 < a.num then RVal.pinf else RVal.ninf)
      else RVal.fin (qDiv a 0)) = _
    rw [if_pos (show (0 : ℚ).num = 0 from rfl)]
    simp only [Rat.num_eq_zero, Rat.num_pos]
  · intro h
    rw [candOf_eq, h]
    cases deltaOf obs methods dd m.numerator r d <;> rfl

theorem C3_div_by_zero_amended_witness :
    candOf obsC3 methodsC3 1 ⟨"m", "n", "t"⟩ "R" 1 =
        (if (5 : ℚ) = 0 then RVal.nan else if 0 < (5 : ℚ) then RVal.pinf else RVal.ninf) ∧
    candOf obsC3b methodsC3 1 ⟨"m", "n", "t"⟩ "R" 1 = RVal.nan :=
  ⟨(C3_div_by_zero_amended obsC3 methodsC3 1 ⟨"m", "n", "t"⟩ "R" 1).1 5
      (by decide) (by decide),
    (C3_div_by_zero_amended obsC3b methodsC3 1 ⟨"m", "n", "t"⟩ "R" 1).2 (by decide)⟩

/-- C5: delta computation — on the dense axis, the delta of a (variable,
region) pair at date `d` is the cumulative value at `d` minus the value at
`d - diff_days` whenever both cells are present (negative results pass
through unclamped), and is missing whenever either endpoint cell is
missing. -/
theorem C5_delta_correct (obs : List Obs) (methods : List Method) (dd : Nat)
    (v : Field) (r : Region) (d : Int) :
    (∀ a b : ℚ,
      lookupVal (resOf obs methods) v r d = some a →
      lookupVal (resOf obs methods) v r (d - (dd : Int)) = some b →
      deltaOf obs methods dd v r d = some (a - b)) ∧
    ((lookupVal (resOf obs methods) v r d = none ∨
        lookupVal (resOf obs methods) v r (d - (dd : Int)) = none) →
      deltaOf obs methods dd v r d = none) := by
  constructor
  · intro a b h1 h2
    obtain ⟨o, ho, hv2, hr2, hd2, hval⟩ := lookupVal_eq_some h2
    have hmem : (d - (dd : Int)) ∈ datesOf (resOf obs methods) := by
      rw [← hd2]
      exact List.mem_map_of_mem _ ho
    have hs : startD (resOf obs methods) ≤ d - (dd : Int) := minD_le hmem
    unfold deltaOf deltaAt
    rw [if_neg (not_lt.mpr hs), h1, h2]
    show some (qSub a b) = some (a - b)
    rw [qSub_eq]
  · intro h
    unfold deltaOf deltaAt
    by_cases hlt : d - (dd : Int) < startD (resOf obs methods)
    · rw [if_pos hlt]
    · rw [if_neg hlt]
      rcases h with h | h
      · rw [h]
      · rw [h]
        cases lookupVal (resOf obs methods) v r d <;> rfl

theorem C5_delta_correct_witness :
    (lookupVal (resOf obsC5 methodsC5) "cum" "R" 1 = some 15 ∧
      lookupVal (resOf obsC5 methodsC5) "cum" "R" 0 = some 10 ∧
      deltaOf obsC5 methodsC5 1 "cum" "R" 1 = some ((15 : ℚ) - 10)) ∧
    deltaOf obsC5 methodsC5 1 "cum" "R" 0 = none ∧
    deltaOf obsC5 methodsC5 1 "cum" "R" 1 = some 5 ∧
    deltaOf obsC5 methodsC5 1 "cum" "R" 2 = some 10 ∧
    deltaOf obsC5 methodsC5 1 "cum" "R" 3 = some 15 ∧
    deltaOf obsC5 methodsC5 1 "cum" "R" 4 = some (qInt (-10)) :=
  ⟨⟨by decide, by decide,
      (C5_delta_correct obsC5 methodsC5 1 "cum" "R" 1).1 15 10 (by decide) (by decide)⟩,
    (C5_delta_correct obsC5 methodsC5 1 "cum" "R" 0).2 (Or.inr (by decide)),
    by decide, by decide, by decide, by decide⟩

/-- C10: an infinite candidate value counts as non-missing throughout
selection — when a (region, method) pair has a signed-infinity cell inside
the recency window (for a method its own name resolves to), the row
survives the drop-empty step, counts as recent-viable, and the region
receives a selection (its provenance entry is present). -/
theorem C10_inf_viable (obs : List Obs) (methods : List Method) (dd rd : Nat)
    (m : Method) (r : Region) (d : Int)
    (hres : resolve methods m.name = some m)
    (hd : d ∈ recentOf obs methods rd)
    (hinf : candOf obs methods dd m r d = RVal.pinf ∨
      candOf obs methods dd m r d = RVal.ninf) :
    viableOf obs methods dd rd m r ∧ provOf obs methods dd rd r ≠ none := by
  have hne : candOf obs methods dd m r d ≠ RVal.nan := by
    rcases hinf with h | h <;> rw [h] <;> exact fun hc => RVal.noConfusion hc
  have hrecent : recentDataOf obs methods dd rd m r := ⟨d, hd, hne⟩
  have hdr : d ∈ dateRange (startD (resOf obs methods)) (endD (resOf obs methods)) := by
    have h2 := mem_recentRange.mp hd
    exact mem_dateRange.mpr ⟨h2.2, h2.1.2⟩
  have hpres : presentOf obs methods dd m r := by
    refine ⟨?_, ⟨d, hdr, hne⟩⟩
    obtain ⟨qa, qb, hqa, hqb⟩ := divQ_ne_nan
      (x := deltaOf obs methods dd m.numerator r d)
      (y := deltaOf obs methods dd m.denominator r d)
      (by rw [← candOf_eq]; exact hne)
    obtain ⟨⟨a2, ha2⟩, -⟩ := deltaAt_eq_some (q := qa) hqa
    obtain ⟨o, ho, hvar, hreg, hdate, hval⟩ := lookupVal_eq_some ha2
    exact Or.inl (mem_regionsWithData.mpr ⟨o, ho, hvar, hreg⟩)
  have hmn : m.name ∈ methodNames methods := by
    unfold methodNames
    rw [List.mem_dedup]
    exact List.mem_map_of_mem _ (resolve_mem hres).1
  have hmem2 : m.name ∈ viableNames (resOf obs methods) methods dd
      (startD (resOf obs methods)) (endD (resOf obs methods)) rd r :=
    mem_viableNames.mpr ⟨hmn, m, hres, hpres, hrecent⟩
  refine ⟨⟨hpres, hrecent⟩, ?_⟩
  intro hcontra
  rw [show provOf obs methods dd rd r =
      (viableNames (resOf obs methods) methods dd (startD (resOf obs methods))
        (endD (resOf obs methods)) rd r).head? from rfl] at hcontra
  cases hl : viableNames (resOf obs methods) methods dd (startD (resOf obs methods))
      (endD (resOf obs methods)) rd r with
  | nil => rw [hl] at hmem2; exact List.not_mem_nil _ hmem2
  | cons x xs => rw [hl] at hcontra; exact Option.noConfusion hcontra

theorem C10_inf_viable_witness :
    (viableOf obsC10 methodsC10 1 14 ⟨"m", "n", "t"⟩ "R" ∧
      provOf obsC10 methodsC10 1 14 "R" ≠ none) ∧
    candOf obsC10 methodsC10 1 ⟨"m", "n", "t"⟩ "R" 1 = RVal.pinf ∧
    candOf obsC10 methodsC10 1 ⟨"m", "n", "t"⟩ "R" 0 = RVal.nan :=
  ⟨C10_inf_viable obsC10 methodsC10 1 14 ⟨"m", "n", "t"⟩ "R" 1
      (by decide) (by decide) (Or.inl (by decide)),
    by decide, by decide⟩

/-- C7: recency necessity and no-selection behaviour — every selected name
resolves to a method that survived the drop-empty step and has a non-NaN
candidate cell inside the recency window (so a method with only pre-window
data is never the selection), and a region none of whose methods has
recent data is absent from the provenance output (`none`), not an error. -/
theorem C7_recency_necessity (obs : List Obs) (methods : List Method) (dd rd : Nat)
    (r : Region) :
    (∀ nm, provOf obs methods dd rd r = some nm →
      ∃ m, resolve methods nm = some m ∧
        presentOf obs methods dd m r ∧ recentDataOf obs methods dd rd m r) ∧
    ((∀ m ∈ methods, ¬ recentDataOf obs methods dd rd m r) →
      provOf obs methods dd rd r = none) := by
  constructor
  · intro nm hnm
    have hProv : provOf obs methods dd rd r =
        (viableNames (resOf obs methods) methods dd (startD (resOf obs methods))
          (endD (resOf obs methods)) rd r).head? := rfl
    rw [hProv] at hnm
    cases hl : viableNames (resOf obs methods) methods dd (startD (resOf obs methods))
        (endD (resOf obs methods)) rd r with
    | nil => rw [hl] at hnm; exact Option.noConfusion hnm
    | cons x xs =>
      rw [hl] at hnm
      injection hnm with hx
      have hmem : nm ∈ viableNames (resOf obs methods) methods dd
          (startD (resOf obs methods)) (endD (resOf obs methods)) rd r := by
        rw [hl, ← hx]
        exact List.mem_cons_self _ _
      obtain ⟨-, m, hres2, hpres, hrec⟩ := mem_viableNames.mp hmem
      exact ⟨m, hres2, hpres, hrec⟩
  · intro hnone
    have hfilter : (methodNames methods).filter
        (fun nm => viableNameB (resOf obs methods) methods dd (startD (resOf obs methods))
          (endD (resOf obs methods)) rd nm r) = [] := by
      rw [List.filter_eq_nil_iff]
      intro nm hnm hvB
      obtain ⟨m, hres2, hpres, hrec⟩ := viableNameB_eq_true.mp hvB
      exact hnone m (resolve_mem hres2).1 hrec
    show (viableNames (resOf obs methods) methods dd (startD (resOf obs methods))
      (endD (resOf obs methods)) rd r).head? = none
    unfold viableNames
    rw [hfilter]
    rfl

theorem C7_recency_necessity_witness :
    provOf obsC7 methodsC7 1 5 "R" = none ∧
    candOf obsC7 methodsC7 1 ⟨"m", "n", "t"⟩ "R" 1 ≠ RVal.nan :=
  ⟨(C7_recency_necessity obsC7 methodsC7 1 5 "R").2 (by decide), by decide⟩

/-- C6: shape of the dense/delta table — its rows are exactly the distinct
(variable, region) pairs having at least one observation among the
requested fields (no duplicates), its columns are exactly the contiguous
dates from the global minimum to the global maximum observed date across
all requested fields together, those bounds are attained by actual
observations, and every observation date falls inside the axis. -/
theorem C6_dense_shape (obs : List Obs) (methods : List Method)
    (h : resOf obs methods ≠ []) :
    ((wideRows (resOf obs methods)).Nodup ∧
      (∀ v r, (v, r) ∈ wideRows (resOf obs methods) ↔
        ∃ o ∈ resOf obs methods, o.var = v ∧ o.region = r)) ∧
    (∀ d, d ∈ rangeOf obs methods ↔
      startD (resOf obs methods) ≤ d ∧ d ≤ endD (resOf obs methods)) ∧
    (startD (resOf obs methods) ∈ datesOf (resOf obs methods) ∧
      endD (resOf obs methods) ∈ datesOf (resOf obs methods) ∧
      (∀ o ∈ resOf obs methods,
        startD (resOf obs methods) ≤ o.date ∧ o.date ≤ endD (resOf obs methods))) := by
  have hdates : datesOf (resOf obs methods) ≠ [] := by
    intro hc
    apply h
    unfold datesOf at hc
    exact List.map_eq_nil_iff.mp hc
  refine ⟨⟨List.nodup_dedup _, ?_⟩, ?_, ?_, ?_, ?_⟩
  · intro v r
    unfold wideRows
    rw [List.mem_dedup, List.mem_map]
    constructor
    · rintro ⟨o, ho, heq⟩
      rw [Prod.mk.injEq] at heq
      exact ⟨o, ho, heq.1, heq.2⟩
    · rintro ⟨o, ho, hv, hr⟩
      exact ⟨o, ho, by rw [hv, hr]⟩
  · intro d
    unfold rangeOf
    exact mem_dateRange
  · exact minD_mem hdates
  · exact maxD_mem hdates
  · intro o ho
    exact ⟨minD_le (List.mem_map_of_mem _ ho), le_maxD (List.mem_map_of_mem _ ho)⟩

theorem C6_dense_shape_witness :
    ((("n", "A") ∈ wideRows (resOf obsC6 methodsC6) ↔
        ∃ o ∈ resOf obsC6 methodsC6, o.var = "n" ∧ o.region = "A") ∧
      ((4 : Int) ∈ rangeOf obsC6 methodsC6 ↔
        startD (resOf obsC6 methodsC6) ≤ 4 ∧ (4 : Int) ≤ endD (resOf obsC6 methodsC6))) ∧
    (4 : Int) ∈ rangeOf obsC6 methodsC6 ∧
    lookupVal (resOf obsC6 methodsC6) "n" "A" 4 = none ∧
    startD (resOf obsC6 methodsC6) = 0 ∧ endD (resOf obsC6 methodsC6) = 5 :=
  ⟨⟨(C6_dense_shape obsC6 methodsC6 (by decide)).1.2 "n" "A",
      (C6_dense_shape obsC6 methodsC6 (by decide)).2.1 4⟩,
    by decide, by decide, by decide, by decide⟩

/-- C1: the claim fails on the code.  With the registry `methodsC1` whose
position-0 method is named "m2" and position-1 method is named "m1", both
methods recent-viable for region R, the selection recorded in provenance
is "m1" — the position-1 method — because the rows are sorted by method
name as plain strings before the ordered-categorical cast, so the
lexicographically smallest name wins, not the lowest priority index. -/
theorem C1_priority_bug_eval :
    methodsC1 = [⟨"m2", "n2", "t2"⟩, ⟨"m1", "n1", "t1"⟩] ∧
    viableOf obsC1 methodsC1 1 14 ⟨"m2", "n2", "t2"⟩ "R" ∧
    viableOf obsC1 methodsC1 1 14 ⟨"m1", "n1", "t1"⟩ "R" ∧
    provOf obsC1 methodsC1 1 14 "R" = some "m1" ∧
    provOf obsC1 methodsC1 1 14 "R" ≠ some "m2" := by
  decide

/-- C2: the claim fails on the code.  With both methods of `methodsC2`
recent-viable for region R, the provenance records "a" but the exposed
positivity value at date 1 is method "b"'s candidate value, because
pandas `GroupBy.first` takes the first non-NaN value per date column —
the output series is a per-date mixture, not one method's raw series. -/
theorem C2_mixture_bug_eval :
    provOf obsC2 methodsC2 1 14 "R" = some "a" ∧
    candOf obsC2 methodsC2 1 ⟨"a", "n1", "t1"⟩ "R" 1 = RVal.nan ∧
    posOf obsC2 methodsC2 1 14 "R" 1 =
      candOf obsC2 methodsC2 1 ⟨"b", "n2", "t2"⟩ "R" 1 ∧
    posOf obsC2 methodsC2 1 14 "R" 1 ≠ RVal.nan ∧
    posOf obsC2 methodsC2 1 14 "R" 1 ≠
      candOf obsC2 methodsC2 1 ⟨"a", "n1", "t1"⟩ "R" 1 ∧
    posOf obsC2 methodsC2 1 14 "R" 2 =
      candOf obsC2 methodsC2 1 ⟨"a", "n1", "t1"⟩ "R" 2 := by
  decide

/-- C8: `AllMethods.run` aborts the whole invocation with the schema
error exactly when some field required by the requested methods is absent
from every input observation, and otherwise (for a nonempty registry)
returns a complete result — the outcome is binary at the invocation
level. -/
theorem C8_schema_error (obs : List Obs) (methods : List Method) (dd rd : Nat)
    (hm : methods ≠ []) :
    ((∃ f ∈ tsValueCols methods, ∀ o ∈ obs, o.var ≠ f) →
      run obs methods dd rd = Except.error "SchemaError") ∧
    ((∀ f ∈ tsValueCols methods, ∃ o ∈ obs, o.var = f) →
      ∃ result, run obs methods dd rd = Except.ok result) := by
  constructor
  · rintro ⟨f, hf, habs⟩
    have hcol : f ∉ columnsOf obs := by
      intro hc
      obtain ⟨o, ho, hv⟩ := mem_columnsOf.mp hc
      exact habs o ho hv
    have hnall : ¬ ((tsValueCols methods).all
        (fun f => decide (f ∈ columnsOf obs)) = true) := by
      rw [List.all_eq_true]
      intro hall
      exact hcol (of_decide_eq_true (hall f hf))
    unfold run
    rw [if_neg hnall]
  · intro hall2
    have hball : ((tsValueCols methods).all
        (fun f => decide (f ∈ columnsOf obs)) = true) := by
      rw [List.all_eq_true]
      intro f hf
      obtain ⟨o, ho, hv⟩ := hall2 f hf
      exact decide_eq_true (mem_columnsOf.mpr ⟨o, ho, hv⟩)
    cases methods with
    | nil => exact absurd rfl hm
    | cons mh mt =>
      obtain ⟨o, ho, hv⟩ := hall2 mh.numerator (mem_tsValueCols (List.mem_cons_self mh mt)).1
      have hres : o ∈ resOf obs (mh :: mt) := by
        unfold resOf restrict
        refine List.mem_filter.mpr ⟨ho, ?_⟩
        exact decide_eq_true (hv ▸ (mem_tsValueCols (List.mem_cons_self mh mt)).1)
      have hne : ¬ ((resOf obs (mh :: mt)).isEmpty = true) := by
        intro hc
        rw [List.isEmpty_iff] at hc
        rw [hc] at hres
        exact List.not_mem_nil _ hres
      unfold run
      rw [if_pos hball, if_neg hne]
      exact ⟨_, rfl⟩

theorem C8_schema_error_witness :
    run obsC8bad methodsC8 7 14 = Except.error "SchemaError" ∧
    (∃ result, run obsC8good methodsC8 7 14 = Except.ok result) :=
  ⟨(C8_schema_error obsC8bad methodsC8 7 14 (by decide)).1 ⟨"t", by decide, by decide⟩,
    (C8_schema_error obsC8good methodsC8 7 14 (by decide)).2 (by decide)⟩

/-- C4 counterexample: the two snapshots agree on every observation of
region Y and differ only in region X (present only in `obs4a`, at date
20), yet Y's computed outputs differ: with X present the shared axis ends
at 20, the recency window becomes 16..20, Y's data is all pre-window and
Y receives no selection; with X removed Y is selected.  This refutes the
claim that corrupting or removing region X's data cannot change region
Y's outputs. -/
theorem C4_counterexample :
    obs4a.filter (fun o => o.region == "Y") = obs4b.filter (fun o => o.region == "Y") ∧
    provOf obs4a methodsC4 1 5 "Y" = none ∧
    provOf obs4b methodsC4 1 5 "Y" = some "m" := by
  decide

/-- C4 amended: isolation holds relative to the shared date axis — if two
snapshots agree on all observations of region Y and additionally have the
same global minimum and maximum observed date over the requested fields,
then region Y's delta series, candidate series, provenance and selected
positivity series are identical; observations of other regions may differ
arbitrarily. -/
theorem C4_isolation_amended (obs1 obs2 : List Obs) (methods : List Method)
    (dd rd : Nat) (Y : Region)
    (hY : obs1.filter (fun o => o.region == Y) = obs2.filter (fun o => o.region == Y))
    (hs : startD (resOf obs1 methods) = startD (resOf obs2 methods))
    (he : endD (resOf obs1 methods) = endD (resOf obs2 methods)) :
    (∀ v d, deltaOf obs1 methods dd v Y d = deltaOf obs2 methods dd v Y d) ∧
    (∀ m d, candOf obs1 methods dd m Y d = candOf obs2 methods dd m Y d) ∧
    provOf obs1 methods dd rd Y = provOf obs2 methods dd rd Y ∧
    (∀ d, posOf obs1 methods dd rd Y d = posOf obs2 methods dd rd Y d) := by
  have hres : (resOf obs1 methods).filter (fun o => o.region == Y) =
      (resOf obs2 methods).filter (fun o => o.region == Y) := by
    unfold resOf
    rw [restrict_filter_comm, restrict_filter_comm, hY]
  refine ⟨?_, ?_, ?_, ?_⟩
  · intro v d
    unfold deltaOf
    rw [deltaAt_congr hres, hs]
  · intro m d
    unfold candOf
    rw [ratioAt_congr hres, hs]
  · unfold provOf
    rw [provenanceAt_congr hres, hs, he]
  · intro d
    unfold posOf
    rw [positivityAt_congr hres, hs, he]

theorem C4_isolation_amended_witness :
    provOf obs4w1 methodsC4 1 5 "Y" = provOf obs4w2 methodsC4 1 5 "Y" ∧
    posOf obs4w1 methodsC4 1 5 "Y" 1 = posOf obs4w2 methodsC4 1 5 "Y" 1 ∧
    lookupVal obs4w1 "n" "X" 1 ≠ lookupVal obs4w2 "n" "X" 1 :=
  ⟨(C4_isolation_amended obs4w1 obs4w2 methodsC4 1 5 "Y"
      (by decide) (by decide) (by decide)).2.2.1,
    (C4_isolation_amended obs4w1 obs4w2 methodsC4 1 5 "Y"
      (by decide) (by decide) (by decide)).2.2.2 1,
    by decide⟩

end TestPos
